import Mathlib

/-!
Verification development for the ChatbotAdmin content-ingestion pipeline
(`src/crawling/crawling.service.ts`).  The TypeScript service is shallowly
embedded: strings are `List Char`, asynchronous network effects become
function parameters (`fetch`, `embed`), and the vector store becomes an
explicit list of records threaded through the persistence operations.
-/

namespace ChatbotAdmin

/-! ## Character and string primitives (models of the JS string methods used) -/

/-- Sentence-terminal characters, from the regex `[.!?]+` in `splitTextIntoChunks`. -/
def isTerm (c : Char) : Bool := c = '.' || c = '!' || c = '?'

/-- Model of JS `String.prototype.trim`: drop whitespace from both ends. -/
def jsTrim (cs : List Char) : List Char :=
  (((cs.dropWhile Char.isWhitespace).reverse).dropWhile Char.isWhitespace).reverse

/-- Apply a function to the first element of a list, if any. -/
def mapHead (f : List Char → List Char) : List (List Char) → List (List Char)
  | [] => []
  | s :: ss => f s :: ss

/-- Worker for `splitTerms`, structurally recursive on a fuel bound so that
the definition reduces in the kernel; the fuel never runs out when it starts
at the length of the input (each step consumes at least one character). -/
def splitTermsFuel : Nat → List Char → List (List Char)
  | _, [] => [[]]
  | 0, _ :: _ => [[]]
  | fuel + 1, c :: rest =>
    if isTerm c then [] :: splitTermsFuel fuel (rest.dropWhile isTerm)
    else mapHead (c :: ·) (splitTermsFuel fuel rest)

/-- Model of JS `text.split(/[.!?]+/)`: a fragment boundary at each maximal
run of sentence terminators.  `splitTerms "a..b" = ["a","b"]`,
`splitTerms "a." = ["a",""]`, `splitTerms "" = [""]`, matching JS. -/
def splitTerms (cs : List Char) : List (List Char) :=
  splitTermsFuel cs.length cs

/-- Model of JS `chunk.split(". ")`: split on the exact two-character
separator used to join sentences into chunks. -/
def splitSep : List Char → List (List Char)
  | [] => [[]]
  | [c] => [[c]]
  | c :: d :: rest =>
    if c = '.' && d = ' ' then [] :: splitSep rest
    else mapHead (c :: ·) (splitSep (d :: rest))

/-- Join a group of sentences with the `". "` separator, as the running
`currentChunk` buffer of `splitTextIntoChunks` does. -/
def joinDot : List (List Char) → List Char
  | [] => []
  | [s] => s
  | s :: ss => s ++ '.' :: ' ' :: joinDot ss

/-! ## splitTextIntoChunks (crawling.service.ts lines 602-621) -/

/-- The sentence list of `splitTextIntoChunks`:
`text.split(/[.!?]+/).filter(s => s.trim().length > 0)`. -/
def sentencesOf (text : List Char) : List (List Char) :=
  (splitTerms text).filter (fun s => jsTrim s ≠ [])

/-- The `for (const sentence of sentences)` loop of `splitTextIntoChunks`,
including the final flush of a non-blank `currentChunk`. -/
def chunkLoop (maxChunkSize : Nat) : List (List Char) → List Char → List (List Char)
  | [], currentChunk =>
    if jsTrim currentChunk ≠ [] then [jsTrim currentChunk] else []
  | sentence :: rest, currentChunk =>
    if currentChunk.length + sentence.length > maxChunkSize && currentChunk.length > 0 then
      jsTrim currentChunk :: chunkLoop maxChunkSize rest sentence
    else
      chunkLoop maxChunkSize rest
        (currentChunk ++ (if currentChunk = [] then [] else ['.', ' ']) ++ sentence)

/-- Embedding of `splitTextIntoChunks(text, maxChunkSize = 1000)`. -/
def splitTextIntoChunks (text : List Char) (maxChunkSize : Nat := 1000) : List (List Char) :=
  chunkLoop maxChunkSize (sentencesOf text) []

example : splitTextIntoChunks "ab.cd.zzzzzz".data 5 = ["ab. cd".data, "zzzzzz".data] := by decide
example : splitTextIntoChunks " a".data 1000 = ["a".data] := by decide
example : sentencesOf " a".data = [" a".data] := by decide
example : splitTextIntoChunks "hello".data 1000 = ["hello".data] := by decide
example : (splitTextIntoChunks "ab.cd.zzzzzz".data 5).flatMap splitSep
    = ["ab".data, "cd".data, "zzzzzz".data] := by decide
example : splitTerms "a..b!c?".data = ["a".data, "b".data, "c".data, "".data] := by decide

/-! ## Substring search and case folding (models of JS `includes`, `endsWith`, `toLowerCase`) -/

/-- Model of JS `toLowerCase` for the ASCII data handled here. -/
def lowerChars (cs : List Char) : List Char := cs.map Char.toLower

/-- Break a character list at the first occurrence of `pat`, returning the
parts before and after the occurrence; `none` when `pat` never occurs. -/
def breakOnSub (pat : List Char) : List Char → Option (List Char × List Char)
  | [] => none
  | c :: cs =>
    if pat.isPrefixOf (c :: cs) then some ([], (c :: cs).drop pat.length)
    else
      match breakOnSub pat cs with
      | some (a, b) => some (c :: a, b)
      | none => none

/-! ## detectUrlType (crawling.service.ts lines 60-71) -/

/-- Embedding of `detectUrlType`: the checks apply to the whole URL string
(`url.toLowerCase().endsWith('.pdf')`, `url.includes('github.com')`, ...),
evaluated in order with the first match winning. -/
def detectUrlType (url : String) : String :=
  if ".pdf".data.isSuffixOf (lowerChars url.data) then "pdf"
  else if (breakOnSub "github.com".data url.data).isSome then "github"
  else if ".md".data.isSuffixOf (lowerChars url.data)
      || ".markdown".data.isSuffixOf (lowerChars url.data) then "markdown"
  else "website"

example : detectUrlType "https://x.com/doc.pdf" = "pdf" := by decide
example : detectUrlType "https://x.com/DOC.PDF" = "pdf" := by decide
example : detectUrlType "https://github.com/o/r" = "github" := by decide
example : detectUrlType "https://x.com/notes.md" = "markdown" := by decide
example : detectUrlType "https://example.com" = "website" := by decide
example : detectUrlType "https://x.com/doc.pdf?download=1" = "website" := by decide

/-! ## URL objects (model of the WHATWG `URL` class used by the browser context) -/

/-- The parts of a parsed URL that the link collector inspects. -/
structure UrlObj where
  scheme : List Char
  hostname : List Char
  pathname : List Char
deriving DecidableEq, Repr

/-- Valid scheme characters, per the URL standard. -/
def validScheme (cs : List Char) : Bool :=
  !cs.isEmpty && cs.all (fun c => c.isAlpha || c.isDigit || c = '+' || c = '-' || c = '.')

/-- Model of `new URL(s)` for absolute `scheme://host...` URLs: splits scheme,
hostname (lowercased, port stripped) and pathname (query and fragment
stripped, defaulting to `/`); `none` models the constructor throwing. -/
def parseUrl (s : String) : Option UrlObj :=
  match breakOnSub "://".data s.data with
  | none => none
  | some (sch, rest) =>
    if validScheme sch then
      let hostport := rest.takeWhile (fun c => !(c = '/' || c = '?' || c = '#'))
      if hostport.isEmpty then none
      else
        let afterHost := rest.drop hostport.length
        let path := afterHost.takeWhile (fun c => !(c = '?' || c = '#'))
        some { scheme := lowerChars sch
               hostname := lowerChars (hostport.takeWhile (fun c => !(c = ':')))
               pathname := if path.isEmpty then ['/'] else path }
    else none

/-- Model of `URL.origin`: `scheme://hostname`. -/
def urlOrigin (u : UrlObj) : List Char := u.scheme ++ "://".data ++ u.hostname

/-- The directory part of a pathname: everything up to and including the
last `/`. -/
def dirOf (path : List Char) : List Char :=
  (path.reverse.dropWhile (fun c => !(c = '/'))).reverse

/-- Whether a string starts with a `scheme:` part. -/
def hasScheme (cs : List Char) : Bool :=
  match breakOnSub [':'] cs with
  | some (sch, _) => !sch.isEmpty && sch.all Char.isAlpha
  | none => false

/-- Model of `new URL(href, base).href` for hrefs without an authority:
schemeful hrefs stand alone, `?`/`#` hrefs replace query/fragment of the base,
other relative hrefs are resolved against the base path's directory (dot-dot
normalization is not modelled; the inputs of interest contain none). -/
def resolveRel (href : String) (base : UrlObj) : String :=
  let h := if "./".data.isPrefixOf href.data then href.data.drop 2 else href.data
  if hasScheme h then href
  else if h.head? = some '?' || h.head? = some '#' then
    String.mk (urlOrigin base ++ base.pathname ++ h)
  else
    String.mk (urlOrigin base ++ dirOf base.pathname ++ h)

/-! ## collectSiteLinks (crawling.service.ts lines 476-523) -/

/-- The asset-extension test `linkUrl.pathname.match(/\.(pdf|jpg|jpeg|png|gif|css|js|ico)$/i)`. -/
def assetPath (path : List Char) : Bool :=
  ["pdf", "jpg", "jpeg", "png", "gif", "css", "js", "ico"].any
    (fun ext => ('.' :: ext.data).isSuffixOf (lowerChars path))

/-- The same-host/asset/api/admin filter and `Set` insertion applied to a
candidate `fullUrl`, shared by the code path and the spec-side variant. -/
def keepSiteLink (b : UrlObj) (acc : List String) (fu : String) : List String :=
  match parseUrl fu with
  | none => acc
  | some link =>
    if link.hostname == b.hostname
        && !assetPath link.pathname
        && !(breakOnSub "/api/".data link.pathname).isSome
        && !(breakOnSub "/admin/".data link.pathname).isSome then
      if acc.contains fu then acc else acc ++ [fu]
    else acc

/-- One `allLinks.forEach` iteration of `collectSiteLinks`: the href-shape
dispatch of the page-evaluate callback.  Note the `href.startsWith('/')`
branch also captures protocol-relative `//host/...` hrefs and resolves them
by prefixing the seed origin. -/
def siteLinkStep (b : UrlObj) (acc : List String) (href : String) : List String :=
  if href = "" then acc
  else
    let fullUrl : Option String :=
      if "http".data.isPrefixOf href.data then some href
      else if "/".data.isPrefixOf href.data then
        some (String.mk (urlOrigin b ++ href.data))
      else if "./".data.isPrefixOf href.data || !("#".data.isPrefixOf href.data) then
        some (resolveRel href b)
      else none
    match fullUrl with
    | none => acc
    | some fu => keepSiteLink b acc fu

/-- Embedding of `collectSiteLinks(page, baseUrl)`, with the hrefs found on
the page passed explicitly; an unparsable base models the outer catch
returning `[]`. -/
def collectSiteLinks (baseUrl : String) (hrefs : List String) : List String :=
  match parseUrl baseUrl with
  | none => []
  | some b => hrefs.foldl (siteLinkStep b) []

/-- Modelled from the spec: one href step of site-link collection as §4.6
step 3 words it — "resolve relative/absolute/protocol-relative hrefs against
the seed's origin" — so a protocol-relative `//host/...` href resolves to
`scheme://host/...`; filtering and deduplication are as in the code. -/
def specSiteLinkStep (b : UrlObj) (acc : List String) (href : String) : List String :=
  if href = "" then acc
  else
    let fullUrl : Option String :=
      if "//".data.isPrefixOf href.data then
        some (String.mk (b.scheme ++ ':' :: href.data))
      else if "http".data.isPrefixOf href.data then some href
      else if "/".data.isPrefixOf href.data then
        some (String.mk (urlOrigin b ++ href.data))
      else if "./".data.isPrefixOf href.data || !("#".data.isPrefixOf href.data) then
        some (resolveRel href b)
      else none
    match fullUrl with
    | none => acc
    | some fu => keepSiteLink b acc fu

/-- Modelled from the spec: site-link collection with protocol-relative
hrefs resolved per the URL standard (§4.6 step 3). -/
def specSiteLinks (baseUrl : String) (hrefs : List String) : List String :=
  match parseUrl baseUrl with
  | none => []
  | some b => hrefs.foldl (specSiteLinkStep b) []

example : collectSiteLinks "https://example.com"
    ["/api/foo", "/admin/bar", "http://other-host.com/x", "/page2"]
    = ["https://example.com/page2"] := by decide
example : collectSiteLinks "https://a.com" ["//b.com/x"]
    = ["https://a.com//b.com/x"] := by decide
example : specSiteLinks "https://a.com" ["//b.com/x"] = [] := by decide
example : (parseUrl "https://x.com/doc.pdf?download=1").map UrlObj.pathname
    = some "/doc.pdf".data := by decide

/-! ## Persistence records (database.service.ts interface, crawling.service.ts lines 623-665 and 139-156) -/

/-- The `CrawlRecord` shape handed to `saveBatchRecords`; the embedding
vector type is abstract (`E`), produced by the Bedrock gateway. -/
structure CrawlRecord (E : Type) where
  url : String
  title : String
  content : List Char
  embedding : E
  chunk_index : Nat
  page_index : Nat
deriving DecidableEq

/-- The `PageContent` intermediate of the website crawler. -/
structure PageContent where
  title : String
  text : List Char
  url : String
deriving DecidableEq

/-- One row of the `threads` table as the first `DatabaseService` variant
(crawling.controller.ts lines 771-828) fills it from a `CrawlRecord`:
`INSERT INTO threads (thread_url, root_message, thread_summary,
thread_embedding)`, where the JS `record.title || null` and
`record.content || null` send empty strings to NULL, and the embedding
array (always truthy) is serialized. -/
structure ThreadRow (E : Type) where
  thread_url : String
  root_message : Option String
  thread_summary : Option (List Char)
  thread_embedding : Option E
deriving DecidableEq

/-- The `CrawlRecord` to `threads`-row mapping of the first variant's
`saveBatchRecords`. -/
def toThreadRow {E : Type} (r : CrawlRecord E) : ThreadRow E :=
  { thread_url := r.url
    root_message := if r.title = "" then none else some r.title
    thread_summary := if r.content = [] then none else some r.content
    thread_embedding := some r.embedding }

/-- The database state the two `DatabaseService` variants in
crawling.controller.ts touch: the `tmp` table of crawl records and the
`threads` table. -/
structure DbState (E : Type) where
  tmp : List (CrawlRecord E)
  threads : List (ThreadRow E)
deriving DecidableEq

/-- Embedding of `DatabaseService.deleteByUrls`, identical in both variants
(crawling.controller.ts lines 830-845 and 1034-1049): an empty url list
returns early, otherwise `DELETE FROM tmp WHERE url = ANY(urls)` — only the
`tmp` table is touched. -/
def deleteByUrls {E : Type} (urls : List String) (db : DbState E) : DbState E :=
  if urls = [] then db
  else { db with tmp := db.tmp.filter (fun r => !(urls.contains r.url)) }

/-- Embedding of the second `DatabaseService` variant's `saveBatchRecords`
(crawling.controller.ts lines 1002-1032): `INSERT INTO tmp ...`, one row per
record, in order. -/
def saveBatchRecordsTmp {E : Type} (records : List (CrawlRecord E)) (db : DbState E) :
    DbState E :=
  { db with tmp := db.tmp ++ records }

/-- Embedding of the first `DatabaseService` variant's `saveBatchRecords`
(crawling.controller.ts lines 771-828): `INSERT INTO threads ...`, one row
per record, in order — a different table from the one `deleteByUrls`
clears. -/
def saveBatchRecordsThreads {E : Type} (records : List (CrawlRecord E)) (db : DbState E) :
    DbState E :=
  { db with threads := db.threads ++ records.map toThreadRow }

/-- The records one crawled page contributes in `saveToDatabase`: one per
chunk of the page text, with 0-based `chunk_index` and the page's index as
`page_index`. -/
def pageRecords {E : Type} (embed : List Char → E) (pageIndex : Nat) (page : PageContent) :
    List (CrawlRecord E) :=
  (splitTextIntoChunks page.text 1000).enum.map
    (fun ci => { url := page.url, title := page.title, content := ci.2,
                 embedding := embed ci.2, chunk_index := ci.1, page_index := pageIndex })

/-- The full record batch `saveToDatabase` builds over all crawled pages. -/
def saveToDatabaseRecords {E : Type} (embed : List Char → E) (crawledPages : List PageContent) :
    List (CrawlRecord E) :=
  crawledPages.enum.flatMap (fun pi => pageRecords embed pi.1 pi.2)

/-- Embedding of `saveToDatabase(crawledPages)` acting on an explicit
database state: delete the crawled urls when there are any, then save the
record batch through the injected `DatabaseService.saveBatchRecords`
(`save` is one of the two variants); also returns `totalChunks`. -/
def saveToDatabase {E : Type} (save : List (CrawlRecord E) → DbState E → DbState E)
    (embed : List Char → E) (crawledPages : List PageContent)
    (db : DbState E) : DbState E × Nat :=
  let urls := crawledPages.map (fun p => p.url)
  let db1 := if urls.length > 0 then deleteByUrls urls db else db
  let records := saveToDatabaseRecords embed crawledPages
  (save records db1, records.length)

/-- The record batch `processPdf` builds from the extracted text: one record
per chunk, `page_index = 0` (the same shape serves `processMarkdown`; and
`processGitHubRepo` differs only in chunk size 1500). -/
def processPdfRecords {E : Type} (embed : List Char → E) (url title : String)
    (content : List Char) : List (CrawlRecord E) :=
  (splitTextIntoChunks content 1000).enum.map
    (fun ci => { url := url, title := title, content := ci.2,
                 embedding := embed ci.2, chunk_index := ci.1, page_index := 0 })

/-- The persistence step of `processPdf`: the batch is saved through the
injected `DatabaseService.saveBatchRecords` with no preceding delete of the
source url. -/
def processPdfSave {E : Type} (save : List (CrawlRecord E) → DbState E → DbState E)
    (embed : List Char → E) (url title : String)
    (content : List Char) (db : DbState E) : DbState E :=
  save (processPdfRecords embed url title content) db

example :
    (((processPdfSave saveBatchRecordsTmp (fun _ => ()) "u" "t" "hello".data
        (processPdfSave saveBatchRecordsTmp (fun _ => ()) "u" "t" "hello".data
          ⟨[], []⟩)).tmp).filter
      (fun r => r.url == "u")).length = 2 := by decide

/-! ## Batch crawl jobs (crawling.service.ts lines 667-769) -/

/-- The `CrawlResult` of the basic crawl path; the timestamp is a number. -/
structure CrawlResult where
  url : String
  title : String
  content : String
  links : List String
  timestamp : Nat
deriving DecidableEq

/-- The loosely-typed job value stored in the `crawlJobs` map. -/
structure CrawlJob where
  status : String
  total : Nat
  completed : Nat
  results : List CrawlResult
deriving DecidableEq

/-- Model of `Map.set`: overwrite the value of an existing key in place, or
append a new binding. -/
def mapSet (jobs : List (String × CrawlJob)) (k : String) (v : CrawlJob) :
    List (String × CrawlJob) :=
  if jobs.any (fun p => p.1 == k) then
    jobs.map (fun p => if p.1 = k then (k, v) else p)
  else jobs ++ [(k, v)]

/-- Embedding of `generateJobId`: `job_<timestamp>_<random suffix>`. -/
def generateJobId (now : Nat) (rand : String) : String :=
  "job_" ++ toString now ++ "_" ++ rand

/-- The per-URL loop of `batchCrawl`.  `fetch` models `crawlUrl`: `none` is a
throw, which the loop catches and logs, leaving `results`, `completed` and
`job.results` untouched for that URL. -/
def batchCrawlLoop (fetch : String → Option CrawlResult) :
    List String → List CrawlResult → CrawlJob → List CrawlResult × CrawlJob
  | [], results, job => (results, { job with status := "completed" })
  | url :: rest, results, job =>
    match fetch url with
    | some r =>
      batchCrawlLoop fetch rest (results ++ [r])
        { job with completed := job.completed + 1, results := job.results ++ [r] }
    | none => batchCrawlLoop fetch rest results job

/-- Embedding of `batchCrawl(urls)`: create the job under a generated id,
run the per-URL loop, store the finished job, and return only the results
list.  The repeated `crawlJobs.set(jobId, job)` calls of the loop all target
the same key, so only the final job value is observable in the map. -/
def batchCrawl (fetch : String → Option CrawlResult) (jobId : String) (urls : List String)
    (jobs : List (String × CrawlJob)) : List CrawlResult × List (String × CrawlJob) :=
  let job0 : CrawlJob := { status := "running", total := urls.length, completed := 0, results := [] }
  let run := batchCrawlLoop fetch urls [] job0
  (run.1, mapSet jobs jobId run.2)

/-! ## Job status (crawling.service.ts lines 710-734), with JS number semantics -/

/-- The slice of JS (IEEE-754 double) arithmetic reachable from
`getCrawlStatus`: exact rationals plus the non-finite values. -/
inductive JsNum where
  | num (x : ℚ)
  | nan
  | inf
  | negInf
deriving DecidableEq

/-- JS division of two non-negative integers: `0/0` is `NaN`, `n/0` with
`n > 0` is `Infinity`. -/
def jsDivNat (a b : Nat) : JsNum :=
  if b = 0 then (if a = 0 then JsNum.nan else JsNum.inf) else JsNum.num ((a : ℚ) / (b : ℚ))

/-- JS multiplication by a positive literal. -/
def jsMulPos (v : JsNum) (k : ℚ) : JsNum :=
  match v with
  | JsNum.num x => JsNum.num (x * k)
  | JsNum.nan => JsNum.nan
  | JsNum.inf => JsNum.inf
  | JsNum.negInf => JsNum.negInf

/-- Model of `Math.round`: round half toward positive infinity; `NaN` and
the infinities pass through. -/
def jsRound : JsNum → JsNum
  | JsNum.num x => JsNum.num ((⌊x + 1/2⌋ : ℤ) : ℚ)
  | v => v

/-- The body of the object `getCrawlStatus` returns. -/
structure CrawlStatusInfo where
  jobId : String
  status : String
  total : Nat
  completed : Nat
  percentage : JsNum
deriving DecidableEq

/-- Embedding of `getCrawlStatus(jobId)`: a missing job id throws
`Job with ID <jobId> not found`; otherwise the progress percentage is
`Math.round((completed / total) * 100)`. -/
def getCrawlStatus (jobs : List (String × CrawlJob)) (jobId : String) :
    Except String CrawlStatusInfo :=
  match jobs.lookup jobId with
  | none => Except.error ("Job with ID " ++ jobId ++ " not found")
  | some job =>
    Except.ok { jobId := jobId, status := job.status, total := job.total,
                completed := job.completed,
                percentage := jsRound (jsMulPos (jsDivNat job.completed job.total) 100) }

/-- Embedding of `getCrawlResults(jobId)`: a missing job id throws
`Job with ID <jobId> not found`; otherwise the stored results are returned. -/
def getCrawlResults (jobs : List (String × CrawlJob)) (jobId : String) :
    Except String (List CrawlResult) :=
  match jobs.lookup jobId with
  | none => Except.error ("Job with ID " ++ jobId ++ " not found")
  | some job => Except.ok job.results

example : getCrawlStatus [] "nonexistent"
    = Except.error "Job with ID nonexistent not found" := rfl
example :
    (getCrawlStatus (batchCrawl (fun _ => none) "j1" [] []).2 "j1").map
      (fun s => s.percentage) = Except.ok JsNum.nan := rfl

/-! ## Lemmas about the job map -/

theorem lookup_map_overwrite (k : String) (v : CrawlJob) :
    ∀ jobs : List (String × CrawlJob),
    (jobs.map (fun p => if p.1 = k then (k, v) else p)).lookup k
      = if jobs.any (fun p => p.1 == k) then some v else none := by
  intro jobs
  induction jobs with
  | nil => simp
  | cons p ps ih =>
    rcases p with ⟨pk, pv⟩
    by_cases hp : pk = k
    · subst hp
      rw [List.map_cons, if_pos rfl]
      simp [List.lookup, ih]
    · have h2 : (k == pk) = false := by
        rw [beq_eq_false_iff_ne]
        exact fun h => hp h.symm
      have h3 : (pk == k) = false := by
        rw [beq_eq_false_iff_ne]
        exact hp
      rw [List.map_cons, if_neg hp]
      simp [List.lookup, h2, ih]
      rw [h3, Bool.false_or]

theorem lookup_append_missing (k : String) (v : CrawlJob) :
    ∀ jobs : List (String × CrawlJob),
    jobs.any (fun p => p.1 == k) = false →
    (jobs ++ [(k, v)]).lookup k = some v := by
  intro jobs
  induction jobs with
  | nil => simp [List.lookup]
  | cons p ps ih =>
    intro h
    rcases p with ⟨pk, pv⟩
    simp only [List.any_cons, Bool.or_eq_false_iff] at h
    have h2 : (k == pk) = false := by
      rw [beq_eq_false_iff_ne]
      intro hk
      rw [beq_eq_false_iff_ne] at h
      exact h.1 hk.symm
    simp [List.lookup, h2, ih h.2]

theorem lookup_mapSet_self (jobs : List (String × CrawlJob)) (k : String) (v : CrawlJob) :
    (mapSet jobs k v).lookup k = some v := by
  unfold mapSet
  by_cases h : jobs.any (fun p => p.1 == k) = true
  · simp [h, lookup_map_overwrite]
  · simp only [Bool.not_eq_true] at h
    simp only [h, Bool.false_eq_true, if_false]
    exact lookup_append_missing _ _ _ h

/-- What the per-URL loop computes: the successful fetches in input order,
with `completed` advanced once per success and the status set to completed. -/
theorem batchCrawlLoop_spec (fetch : String → Option CrawlResult) :
    ∀ (urls : List String) (results : List CrawlResult) (job : CrawlJob),
    batchCrawlLoop fetch urls results job
      = (results ++ urls.filterMap fetch,
         { status := "completed", total := job.total,
           completed := job.completed + (urls.filterMap fetch).length,
           results := job.results ++ urls.filterMap fetch }) := by
  intro urls
  induction urls with
  | nil => intro results job; simp [batchCrawlLoop]
  | cons u us ih =>
    intro results job
    cases h : fetch u with
    | some r =>
      simp [batchCrawlLoop, h, ih, Nat.add_comm, Nat.add_assoc, Nat.add_left_comm]
    | none => simp [batchCrawlLoop, h, ih]

/-- C2 (corrected): with URLs `["A","B","C"]` where fetching `"B"` throws,
the job's `completed` counter ends at 2, not at the attempted count 3 the
claim states. -/
theorem C2_counterexample :
    ((((batchCrawl
          (fun u => if u = "B" then none
            else some { url := u, title := "", content := "", links := [], timestamp := 0 })
          "job1" ["A", "B", "C"] []).2).lookup "job1").map (fun j => j.completed)) = some 2
    ∧ ((((batchCrawl
          (fun u => if u = "B" then none
            else some { url := u, title := "", content := "", links := [], timestamp := 0 })
          "job1" ["A", "B", "C"] []).2).lookup "job1").map (fun j => j.completed)) ≠ some 3 := by
  exact ⟨by decide, by decide⟩

/-- C2 (amended): for every fetch behaviour and URL list, `batchCrawl`
returns exactly the successful URLs' results in input order, the stored job
ends with status `"completed"`, its `total` is the number of URLs given, and
its `completed` counter equals the number of URLs that succeeded (failed
URLs do not increment it). -/
theorem C2_batch_partial_failure (fetch : String → Option CrawlResult) (jobId : String)
    (urls : List String) (jobs : List (String × CrawlJob)) :
    (batchCrawl fetch jobId urls jobs).1 = urls.filterMap fetch
    ∧ (batchCrawl fetch jobId urls jobs).2.lookup jobId
        = some { status := "completed", total := urls.length,
                 completed := (urls.filterMap fetch).length,
                 results := urls.filterMap fetch } := by
  simp only [batchCrawl]
  rw [batchCrawlLoop_spec]
  exact ⟨by simp, by simp [lookup_mapSet_self]⟩

/-- C4 (corrected): `detectUrlType` checks the whole URL string, not the URL
path, so `https://x.com/doc.pdf?download=1` — whose path is `/doc.pdf` — is
classified `website`, not `pdf`. -/
theorem C4_counterexample :
    (parseUrl "https://x.com/doc.pdf?download=1").map UrlObj.pathname = some "/doc.pdf".data
    ∧ detectUrlType "https://x.com/doc.pdf?download=1" = "website"
    ∧ "website" ≠ "pdf" := by
  refine ⟨by decide, by decide, by decide⟩

/-- C4 (amended): whenever the entire lowercased URL string ends with
`.pdf`, `detectUrlType` returns `pdf`; the rule is the first one checked, so
it wins over the github/markdown/website rules. -/
theorem C4_detect_pdf (url : String)
    (h : ".pdf".data.isSuffixOf (lowerChars url.data) = true) :
    detectUrlType url = "pdf" := by
  unfold detectUrlType
  rw [if_pos h]

/-- Witness for C4_detect_pdf at `https://x.com/DOC.PDF`. -/
theorem C4_witness :
    ".pdf".data.isSuffixOf (lowerChars "https://x.com/DOC.PDF".data) = true
    ∧ detectUrlType "https://x.com/DOC.PDF" = "pdf" :=
  ⟨by decide, C4_detect_pdf "https://x.com/DOC.PDF" (by decide)⟩

/-- C6 (confirmed): when the job id is not in the job table, both
`getCrawlStatus` and `getCrawlResults` fail with the not-found error naming
the id, never with a default value. -/
theorem C6_unknown_job_errors (jobs : List (String × CrawlJob)) (jobId : String)
    (h : jobs.lookup jobId = none) :
    getCrawlStatus jobs jobId = Except.error ("Job with ID " ++ jobId ++ " not found")
    ∧ getCrawlResults jobs jobId = Except.error ("Job with ID " ++ jobId ++ " not found") := by
  unfold getCrawlStatus getCrawlResults
  rw [h]
  exact ⟨rfl, rfl⟩

/-- Witness for C6_unknown_job_errors on the empty job table. -/
theorem C6_witness :
    ([] : List (String × CrawlJob)).lookup "nonexistent" = none
    ∧ (getCrawlStatus [] "nonexistent"
          = Except.error ("Job with ID " ++ "nonexistent" ++ " not found")
        ∧ getCrawlResults [] "nonexistent"
          = Except.error ("Job with ID " ++ "nonexistent" ++ " not found")) :=
  ⟨rfl, C6_unknown_job_errors [] "nonexistent" rfl⟩

/-- C9 (confirmed): a batch crawl over an empty URL list creates a job with
`total = 0` that finishes `"completed"`, and `getCrawlStatus` then computes
`Math.round((0 / 0) * 100)`, whose value is `NaN` — not a valid number. -/
theorem C9_empty_batch_nan (fetch : String → Option CrawlResult)
    (jobs : List (String × CrawlJob)) (jobId : String) :
    getCrawlStatus (batchCrawl fetch jobId [] jobs).2 jobId
      = Except.ok { jobId := jobId, status := "completed", total := 0, completed := 0,
                    percentage := JsNum.nan } := by
  simp only [batchCrawl, getCrawlStatus]
  rw [batchCrawlLoop_spec, lookup_mapSet_self]
  rfl

/-- C10 (confirmed): the value `batchCrawl` returns is the result list
alone — it is the same whatever generated job id was used, so the id under
which the job is stored (and which status lookup requires) is not part of
the return value. -/
theorem C10_jobid_not_returned (fetch : String → Option CrawlResult)
    (urls : List String) (jobs : List (String × CrawlJob))
    (t1 t2 : Nat) (r1 r2 : String) :
    (batchCrawl fetch (generateJobId t1 r1) urls jobs).1
      = (batchCrawl fetch (generateJobId t2 r2) urls jobs).1
    ∧ ((batchCrawl fetch (generateJobId t1 r1) urls jobs).2.lookup
        (generateJobId t1 r1)).isSome = true := by
  constructor
  · rfl
  · simp only [batchCrawl]
    rw [lookup_mapSet_self]
    rfl

/-! ## C1: replace-semantics of persistence -/

/-- After `deleteByUrls urls`, no record for a url in `urls` remains in the
`tmp` table. -/
theorem filter_deleteByUrls_tmp_eq_nil {E : Type} (urls : List String)
    (db : DbState E) (u : String) (hu : u ∈ urls) :
    ((deleteByUrls urls db).tmp).filter (fun r => r.url == u) = [] := by
  unfold deleteByUrls
  rw [if_neg (List.ne_nil_of_mem hu)]
  show ((db.tmp.filter (fun r => !(urls.contains r.url))).filter
    (fun r => r.url == u)) = []
  rw [List.filter_filter, List.filter_eq_nil_iff]
  intro r _
  by_cases h : r.url = u
  · simp [h, hu]
  · simp [h]

/-- `deleteByUrls` never touches the `threads` table. -/
theorem deleteByUrls_threads {E : Type} (urls : List String) (db : DbState E) :
    (deleteByUrls urls db).threads = db.threads := by
  unfold deleteByUrls
  by_cases h : urls = []
  · rw [if_pos h]
  · rw [if_neg h]

/-- C1 (corrected): the PDF ingestion path persists with no preceding
delete, so — even under the `DatabaseService` variant whose
`saveBatchRecords` inserts into the same `tmp` table that `deleteByUrls`
clears — ingesting the same PDF URL twice leaves two copies of its chunks
stored while the second run produced only one. -/
theorem C1_counterexample :
    (((processPdfSave saveBatchRecordsTmp (fun _ => ()) "u" "t" "hello".data
        (processPdfSave saveBatchRecordsTmp (fun _ => ()) "u" "t" "hello".data
          ⟨[], []⟩)).tmp).filter (fun r => r.url == "u")).length = 2
    ∧ (processPdfRecords (fun _ => ()) "u" "t" "hello".data).length = 1 := by
  exact ⟨by decide, by decide⟩

/-- C1 (amended): only the website ingestion path (`saveToDatabase`) deletes
previously stored records before inserting, and whether that yields
replace-semantics depends on which of the two `DatabaseService` variants in
crawling.controller.ts is wired in.  Under the variant whose
`saveBatchRecords` inserts into the same `tmp` table that `deleteByUrls`
clears, re-crawling leaves `tmp` holding exactly the second run's records
for each crawled URL (first conjunct).  Under the variant whose
`saveBatchRecords` inserts into the `threads` table, the delete clears `tmp`
while the inserts accumulate in `threads`, so even the website path
duplicates on re-ingestion: after two runs `threads` holds both runs' rows
(second conjunct).  The PDF, Markdown and GitHub paths never delete and
always append. -/
theorem C1_replace_semantics_by_variant {E : Type} (embed : List Char → E)
    (pages : List PageContent) (db : DbState E) (u : String)
    (h : u ∈ pages.map PageContent.url) :
    ((((saveToDatabase saveBatchRecordsTmp embed pages
          (saveToDatabase saveBatchRecordsTmp embed pages db).1).1).tmp).filter
        (fun r => r.url == u))
      = (saveToDatabaseRecords embed pages).filter (fun r => r.url == u)
    ∧ ((saveToDatabase saveBatchRecordsThreads embed pages
          (saveToDatabase saveBatchRecordsThreads embed pages db).1).1).threads
      = ((db.threads ++ (saveToDatabaseRecords embed pages).map toThreadRow)
          ++ (saveToDatabaseRecords embed pages).map toThreadRow) := by
  have hlen : (pages.map (fun p => p.url)).length > 0 := by
    have hne : pages.map (fun p => p.url) ≠ [] := by
      intro hnil
      rw [show pages.map (fun p => p.url) = pages.map PageContent.url from rfl] at hnil
      exact List.ne_nil_of_mem h hnil
    rw [gt_iff_lt, List.length_pos]
    exact hne
  constructor
  · simp only [saveToDatabase, saveBatchRecordsTmp]
    simp only [if_pos hlen]
    rw [List.filter_append,
      filter_deleteByUrls_tmp_eq_nil (pages.map (fun p => p.url)) _ u h,
      List.nil_append]
  · simp only [saveToDatabase, saveBatchRecordsThreads]
    simp only [if_pos hlen]
    rw [deleteByUrls_threads, deleteByUrls_threads]

/-- Witness for C1_replace_semantics_by_variant on a one-page crawl from the
empty database. -/
theorem C1_witness :
    ("u" ∈ ([{ title := "t", text := "hi".data, url := "u" }] : List PageContent).map
        PageContent.url)
    ∧ (((((saveToDatabase saveBatchRecordsTmp (fun _ => ())
            [{ title := "t", text := "hi".data, url := "u" }]
            (saveToDatabase saveBatchRecordsTmp (fun _ => ())
              [{ title := "t", text := "hi".data, url := "u" }]
              (⟨[], []⟩ : DbState Unit)).1).1).tmp).filter (fun r => r.url == "u"))
          = (saveToDatabaseRecords (fun _ => ())
              [{ title := "t", text := "hi".data, url := "u" }]).filter
              (fun r => r.url == "u")
        ∧ ((saveToDatabase saveBatchRecordsThreads (fun _ => ())
              [{ title := "t", text := "hi".data, url := "u" }]
              (saveToDatabase saveBatchRecordsThreads (fun _ => ())
                [{ title := "t", text := "hi".data, url := "u" }]
                (⟨[], []⟩ : DbState Unit)).1).1).threads
          = ((((⟨[], []⟩ : DbState Unit)).threads
                ++ (saveToDatabaseRecords (fun _ => ())
                    [{ title := "t", text := "hi".data, url := "u" }]).map toThreadRow)
              ++ (saveToDatabaseRecords (fun _ => ())
                  [{ title := "t", text := "hi".data, url := "u" }]).map toThreadRow)) :=
  ⟨by decide, C1_replace_semantics_by_variant (fun _ => ())
    [{ title := "t", text := "hi".data, url := "u" }] (⟨[], []⟩ : DbState Unit) "u"
    (by decide)⟩

/-! ## C8: chunk_index is 0-based, contiguous, unique per (url, page) -/

theorem filter_const {α : Type} (b : Bool) (l : List α) :
    l.filter (fun _ => b) = if b then l else [] := by
  cases b <;> simp

/-- The chunk indexes of one page's record batch are exactly `0, 1, ...`. -/
theorem pageRecords_map_chunk_index {E : Type} (embed : List Char → E) (pi : Nat)
    (page : PageContent) :
    (pageRecords embed pi page).map (fun r => r.chunk_index)
      = List.range (splitTextIntoChunks page.text 1000).length := by
  unfold pageRecords
  rw [List.map_map]
  exact List.enum_map_fst (splitTextIntoChunks page.text 1000)

/-- Filtering one page's batch by `(url, page_index)` keeps all of it or
none of it: the predicate is constant on the batch. -/
theorem filter_pageRecords {E : Type} (embed : List Char → E) (pi : Nat)
    (page : PageContent) (u : String) (p : Nat) :
    (pageRecords embed pi page).filter (fun r => r.url == u && r.page_index == p)
      = if page.url == u && pi == p then pageRecords embed pi page else [] := by
  unfold pageRecords
  rw [List.filter_map]
  have hconst : ((fun r : CrawlRecord E => r.url == u && r.page_index == p) ∘
      (fun ci : Nat × List Char =>
        ({ url := page.url, title := page.title, content := ci.2,
           embedding := embed ci.2, chunk_index := ci.1,
           page_index := pi } : CrawlRecord E)))
      = fun _ => (page.url == u && pi == p) := rfl
  rw [hconst, filter_const]
  by_cases hc : (page.url == u && pi == p) = true
  · rw [if_pos hc, if_pos hc]
  · rw [if_neg hc, if_neg hc, List.map_nil]

/-- Pages enumerated from `k > p` contribute nothing at page index `p`. -/
theorem filter_recsFrom_high {E : Type} (embed : List Char → E) (u : String) (p : Nat) :
    ∀ (pages : List PageContent) (k : Nat), p < k →
    ((pages.enumFrom k).flatMap (fun pi => pageRecords embed pi.1 pi.2)).filter
      (fun r => r.url == u && r.page_index == p) = [] := by
  intro pages
  induction pages with
  | nil => intro k _; simp
  | cons page ps ih =>
    intro k hp
    rw [List.enumFrom_cons, List.flatMap_cons, List.filter_append,
      filter_pageRecords, ih (k + 1) (Nat.lt_succ_of_lt hp)]
    have hkp : (k == p) = false := by
      rw [beq_eq_false_iff_ne]; omega
    rw [hkp, Bool.and_false, if_neg (by simp), List.append_nil]

/-- Over an enumerated page list, the records filtered to one
`(url, page_index)` pair carry the chunk indexes `0, 1, ...` exactly. -/
theorem filter_recsFrom_range {E : Type} (embed : List Char → E) (u : String) (p : Nat) :
    ∀ (pages : List PageContent) (k : Nat),
    (((pages.enumFrom k).flatMap (fun pi => pageRecords embed pi.1 pi.2)).filter
        (fun r => r.url == u && r.page_index == p)).map (fun r => r.chunk_index)
      = List.range (((pages.enumFrom k).flatMap (fun pi => pageRecords embed pi.1 pi.2)).filter
          (fun r => r.url == u && r.page_index == p)).length := by
  intro pages
  induction pages with
  | nil => intro k; simp
  | cons page ps ih =>
    intro k
    rw [List.enumFrom_cons, List.flatMap_cons, List.filter_append, filter_pageRecords]
    by_cases hk : p = k
    · subst hk
      rw [filter_recsFrom_high embed u p ps (p + 1) (Nat.lt_succ_self p), List.append_nil]
      by_cases hc : (page.url == u && p == p) = true
      · rw [if_pos hc]
        rw [pageRecords_map_chunk_index]
        congr 1
        unfold pageRecords
        rw [List.length_map, List.enum_length]
      · rw [if_neg hc]
        simp
    · have hkp : (k == p) = false := by
        rw [beq_eq_false_iff_ne]; omega
      rw [hkp, Bool.and_false, if_neg (by simp), List.nil_append]
      exact ih (k + 1)

/-- The PDF batch is the one-page batch at page index 0. -/
theorem processPdfRecords_eq_pageRecords {E : Type} (embed : List Char → E)
    (url title : String) (content : List Char) :
    processPdfRecords embed url title content
      = pageRecords embed 0 { title := title, text := content, url := url } := rfl

/-- C8 (confirmed): in both the website batch (`saveToDatabase`) and the PDF
batch (`processPdf`), the records for each `(sourceUrl, pageIndex)` pair
carry chunk_index values `0, 1, ..., n-1` in order — 0-based, contiguous and
unique. -/
theorem C8_chunk_index_contiguous {E : Type} (embed : List Char → E)
    (pages : List PageContent) (u : String) (p : Nat) (url title : String)
    (content : List Char) :
    (((saveToDatabaseRecords embed pages).filter
          (fun r => r.url == u && r.page_index == p)).map (fun r => r.chunk_index)
        = List.range ((saveToDatabaseRecords embed pages).filter
            (fun r => r.url == u && r.page_index == p)).length)
    ∧ (((processPdfRecords embed url title content).filter
          (fun r => r.url == u && r.page_index == p)).map (fun r => r.chunk_index)
        = List.range ((processPdfRecords embed url title content).filter
            (fun r => r.url == u && r.page_index == p)).length) := by
  constructor
  · unfold saveToDatabaseRecords
    exact filter_recsFrom_range embed u p pages 0
  · rw [processPdfRecords_eq_pageRecords, filter_pageRecords]
    by_cases hc : (({ title := title, text := content, url := url } : PageContent).url == u
        && (0 : Nat) == p) = true
    · rw [if_pos hc, pageRecords_map_chunk_index]
      congr 1
      unfold pageRecords
      rw [List.length_map, List.enum_length]
    · rw [if_neg hc]
      simp

/-! ## C3: chunk size bound -/

theorem jsTrim_length_le (cs : List Char) : (jsTrim cs).length ≤ cs.length := by
  unfold jsTrim
  rw [List.length_reverse]
  refine le_trans (List.dropWhile_sublist _).length_le ?_
  rw [List.length_reverse]
  exact (List.dropWhile_sublist _).length_le

theorem mem_jsTrim {a : Char} {cs : List Char} (h : a ∈ jsTrim cs) : a ∈ cs := by
  unfold jsTrim at h
  rw [List.mem_reverse] at h
  have h2 := (List.dropWhile_sublist _).subset h
  rw [List.mem_reverse] at h2
  exact (List.dropWhile_sublist _).subset h2

/-- The fragments produced by the sentence split contain no sentence
terminator. -/
theorem splitTermsFuel_no_term :
    ∀ (fuel : Nat) (cs : List Char), ∀ s ∈ splitTermsFuel fuel cs, ∀ a ∈ s,
    isTerm a = false := by
  intro fuel
  induction fuel with
  | zero =>
    intro cs s hs a ha
    cases cs <;> simp [splitTermsFuel] at hs <;> subst hs <;> simp at ha
  | succ n ih =>
    intro cs s hs a ha
    cases cs with
    | nil =>
      simp [splitTermsFuel] at hs
      subst hs; simp at ha
    | cons c rest =>
      rw [splitTermsFuel] at hs
      by_cases hc : isTerm c = true
      · rw [if_pos hc] at hs
        rcases List.mem_cons.mp hs with h1 | h1
        · subst h1; simp at ha
        · exact ih _ s h1 a ha
      · rw [if_neg hc] at hs
        cases hrec : splitTermsFuel n rest with
        | nil => rw [hrec] at hs; simp [mapHead] at hs
        | cons t ts =>
          rw [hrec] at hs
          unfold mapHead at hs
          rcases List.mem_cons.mp hs with h1 | h1
          · subst h1
            rcases List.mem_cons.mp ha with h2 | h2
            · subst h2; simpa using hc
            · exact ih rest t (by rw [hrec]; exact List.mem_cons_self t ts) a h2
          · exact ih rest s (by rw [hrec]; exact List.mem_cons_of_mem _ h1) a ha

/-- Invariant of the chunk loop: every emitted chunk either stays within
`maxChunkSize + 2` characters (the `+ 2` being the `". "` join the length
check never counts) or is a single sentence, hence contains no `.`. -/
theorem chunkLoop_chunk_bound (maxChunkSize : Nat) :
    ∀ (ss : List (List Char)) (cur : List Char),
    (∀ s ∈ ss, ∀ a ∈ s, isTerm a = false) →
    ('.' ∉ cur ∨ cur.length ≤ maxChunkSize + 2) →
    ∀ c ∈ chunkLoop maxChunkSize ss cur, c.length ≤ maxChunkSize + 2 ∨ '.' ∉ c := by
  intro ss
  induction ss with
  | nil =>
    intro cur _ hcur c hc
    rw [chunkLoop] at hc
    by_cases ht : jsTrim cur ≠ []
    · rw [if_pos ht] at hc
      simp only [List.mem_singleton] at hc
      subst hc
      rcases hcur with h | h
      · exact Or.inr (fun hm => h (mem_jsTrim hm))
      · exact Or.inl (le_trans (jsTrim_length_le cur) h)
    · rw [if_neg ht] at hc
      simp at hc
  | cons s rest ih =>
    intro cur hss hcur c hc
    have hs : ∀ a ∈ s, isTerm a = false := hss s (List.mem_cons_self _ _)
    have hrest : ∀ x ∈ rest, ∀ a ∈ x, isTerm a = false :=
      fun x hx => hss x (List.mem_cons_of_mem _ hx)
    have hsdot : '.' ∉ s := fun hm => by simpa [isTerm] using hs '.' hm
    rw [chunkLoop] at hc
    by_cases hcond : (cur.length + s.length > maxChunkSize && cur.length > 0) = true
    · rw [if_pos hcond] at hc
      rcases List.mem_cons.mp hc with h1 | h1
      · subst h1
        rcases hcur with h | h
        · exact Or.inr (fun hm => h (mem_jsTrim hm))
        · exact Or.inl (le_trans (jsTrim_length_le cur) h)
      · exact ih s hrest (Or.inl hsdot) c h1
    · rw [if_neg hcond] at hc
      by_cases hnil : cur = []
      · subst hnil
        rw [if_pos rfl, List.append_nil, List.nil_append] at hc
        exact ih s hrest (Or.inl hsdot) c hc
      · have hpos : cur.length > 0 := List.length_pos.mpr hnil
        simp only [Bool.and_eq_true, decide_eq_true_eq, not_and, gt_iff_lt] at hcond
        have hlen : cur.length + s.length ≤ maxChunkSize := by
          by_contra hgt
          exact hcond (by omega) hpos
        rw [if_neg hnil] at hc
        refine ih _ hrest (Or.inr ?_) c hc
        simp only [List.length_append, List.length_cons, List.length_nil]
        omega

/-- C3 (corrected): with `maxChunkSize = 5` and input `ab.cd.zzzzzz`, the
non-final chunk `ab. cd` has 6 > 5 characters yet consists of two sentences
(it contains the `.` join), because the length check ignores the two
characters of the `". "` separator. -/
theorem C3_counterexample :
    splitTextIntoChunks "ab.cd.zzzzzz".data 5 = ["ab. cd".data, "zzzzzz".data]
    ∧ "ab. cd".data.length > 5
    ∧ '.' ∈ "ab. cd".data := by
  refine ⟨by decide, by decide, by decide⟩

/-- C3 (amended): every chunk (final included) has length at most
`maxChunkSize + 2` — the slack being the `". "` join the length check never
counts — unless it consists of a single sentence (contains no `.`), which
may be arbitrarily long. -/
theorem C3_chunk_size_bound (text : List Char) (maxChunkSize : Nat) (c : List Char)
    (h : c ∈ splitTextIntoChunks text maxChunkSize) :
    c.length ≤ maxChunkSize + 2 ∨ '.' ∉ c := by
  unfold splitTextIntoChunks at h
  refine chunkLoop_chunk_bound maxChunkSize (sentencesOf text) [] ?_ (Or.inl (by simp)) c h
  intro s hs a ha
  exact splitTermsFuel_no_term text.length text s (List.mem_of_mem_filter hs) a ha

/-- Witness for C3_chunk_size_bound at the oversized single-sentence chunk
of the counterexample input. -/
theorem C3_witness :
    "zzzzzz".data ∈ splitTextIntoChunks "ab.cd.zzzzzz".data 5
    ∧ ("zzzzzz".data.length ≤ 5 + 2 ∨ '.' ∉ "zzzzzz".data) :=
  ⟨by decide, C3_chunk_size_bound "ab.cd.zzzzzz".data 5 "zzzzzz".data (by decide)⟩

/-! ## C5: site-link collection vs the spec's resolution rules -/

/-- On hrefs that are not protocol-relative, the code's href dispatch and
the spec's differ in nothing. -/
theorem siteLinkStep_eq_spec (b : UrlObj) (acc : List String) (href : String)
    (h : "//".data.isPrefixOf href.data = false) :
    siteLinkStep b acc href = specSiteLinkStep b acc href := by
  unfold siteLinkStep specSiteLinkStep
  rw [h]
  simp only [Bool.false_eq_true, if_false]

theorem foldl_siteLinkStep_eq_spec (b : UrlObj) :
    ∀ (hrefs : List String) (acc : List String),
    (∀ x ∈ hrefs, "//".data.isPrefixOf x.data = false) →
    hrefs.foldl (siteLinkStep b) acc = hrefs.foldl (specSiteLinkStep b) acc := by
  intro hrefs
  induction hrefs with
  | nil => intro acc _; rfl
  | cons x xs ih =>
    intro acc hall
    rw [List.foldl_cons, List.foldl_cons,
      siteLinkStep_eq_spec b acc x (hall x (List.mem_cons_self _ _))]
    exact ih _ (fun y hy => hall y (List.mem_cons_of_mem _ hy))

/-- C5 (corrected): a protocol-relative href is not resolved against the
seed's scheme — the code treats it as path-absolute and prefixes the seed's
origin, so `//b.com/x` on a page of `https://a.com` is kept as the mangled
same-host URL `https://a.com//b.com/x`, although its standard resolution
`https://b.com/x` has hostname `b.com` and the claim says it is excluded. -/
theorem C5_counterexample :
    collectSiteLinks "https://a.com" ["//b.com/x"] = ["https://a.com//b.com/x"]
    ∧ specSiteLinks "https://a.com" ["//b.com/x"] = []
    ∧ (parseUrl "https://b.com/x").map UrlObj.hostname = some "b.com".data := by
  refine ⟨by decide, by decide, by decide⟩

/-- C5 (amended): for every seed URL and every collection of hrefs none of
which is protocol-relative, `collectSiteLinks` returns exactly the
deduplicated resolved URLs whose hostname equals the seed's hostname,
excluding asset extensions and `/api/`, `/admin/` paths, as the spec's rules
compute them; protocol-relative hrefs are the one divergence. -/
theorem C5_no_protocol_relative (baseUrl : String) (hrefs : List String)
    (h : ∀ x ∈ hrefs, "//".data.isPrefixOf x.data = false) :
    collectSiteLinks baseUrl hrefs = specSiteLinks baseUrl hrefs := by
  unfold collectSiteLinks specSiteLinks
  cases hp : parseUrl baseUrl with
  | none => rfl
  | some b => exact foldl_siteLinkStep_eq_spec b hrefs [] h

/-- Witness for C5_no_protocol_relative on the spec's own link-filtering
example. -/
theorem C5_witness :
    (∀ x ∈ (["/api/foo", "/admin/bar", "http://other-host.com/x", "/page2"] : List String),
      "//".data.isPrefixOf x.data = false)
    ∧ collectSiteLinks "https://example.com"
        ["/api/foo", "/admin/bar", "http://other-host.com/x", "/page2"]
      = specSiteLinks "https://example.com"
        ["/api/foo", "/admin/bar", "http://other-host.com/x", "/page2"] :=
  ⟨by decide, C5_no_protocol_relative "https://example.com"
    ["/api/foo", "/admin/bar", "http://other-host.com/x", "/page2"] (by decide)⟩

/-! ## C7: splitting chunks on ". " recovers the sentence groups -/

theorem splitSep_ne_nil : ∀ cs : List Char, splitSep cs ≠ [] := by
  intro cs
  induction cs with
  | nil => simp [splitSep]
  | cons c rest ih =>
    cases rest with
    | nil => simp [splitSep]
    | cons d u =>
      rw [splitSep]
      by_cases hcd : (c = '.' && d = ' ') = true
      · rw [if_pos hcd]; simp
      · rw [if_neg hcd]
        cases h : splitSep (d :: u) with
        | nil => exact absurd h ih
        | cons t ts => simp [mapHead]

theorem mapHead_mapHead (f g : List Char → List Char) (l : List (List Char)) :
    mapHead f (mapHead g l) = mapHead (fun x => f (g x)) l := by
  cases l <;> rfl

theorem mapHead_nil_append (l : List (List Char)) :
    mapHead (fun x => [] ++ x) l = l := by
  cases l <;> simp [mapHead]

/-- A dot-free block prepended to anything only extends the first fragment
of the `". "` split. -/
theorem splitSep_append_no_dot :
    ∀ (s t : List Char), (∀ a ∈ s, a ≠ '.') →
    splitSep (s ++ t) = mapHead (fun x => s ++ x) (splitSep t) := by
  intro s
  induction s with
  | nil => intro t _; rw [List.nil_append, mapHead_nil_append]
  | cons a s' ih =>
    intro t hs
    have ha : a ≠ '.' := hs a (List.mem_cons_self _ _)
    have hs' : ∀ x ∈ s', x ≠ '.' := fun x hx => hs x (List.mem_cons_of_mem _ hx)
    rw [List.cons_append]
    cases hst : s' ++ t with
    | nil =>
      rcases List.append_eq_nil.mp hst with ⟨h1, h2⟩
      subst h1; subst h2
      simp [splitSep, mapHead]
    | cons b u =>
      rw [splitSep]
      have hcd : (a = '.' && b = ' ') = false := by
        simp [ha]
      rw [if_neg (by simp [hcd]), ← hst, ih t hs', mapHead_mapHead]
      rfl

theorem splitSep_dotSpace (rest : List Char) :
    splitSep ('.' :: ' ' :: rest) = [] :: splitSep rest := by
  rw [splitSep, if_pos (by simp)]

theorem joinDot_cons_of_ne_nil (s : List Char) {hs : List (List Char)} (h : hs ≠ []) :
    joinDot (s :: hs) = s ++ '.' :: ' ' :: joinDot hs := by
  cases hs with
  | nil => exact absurd rfl h
  | cons b t => rfl

theorem joinDot_cons_ne_nil {s : List Char} (h : s ≠ []) (hs : List (List Char)) :
    joinDot (s :: hs) ≠ [] := by
  cases hs with
  | nil => exact h
  | cons b t =>
    rw [joinDot_cons_of_ne_nil s (by simp)]
    cases s with
    | nil => exact absurd rfl h
    | cons a s' => simp

/-- Splitting the `". "`-join of dot-free fragments recovers the fragments. -/
theorem splitSep_joinDot :
    ∀ (h : List (List Char)), h ≠ [] → (∀ s ∈ h, ∀ a ∈ s, a ≠ '.') →
    splitSep (joinDot h) = h := by
  intro h
  induction h with
  | nil => intro hne _; exact absurd rfl hne
  | cons s hs ih =>
    intro _ hdot
    have hsdot : ∀ a ∈ s, a ≠ '.' := hdot s (List.mem_cons_self _ _)
    cases hs with
    | nil =>
      show splitSep (joinDot [s]) = [s]
      have : joinDot [s] = s ++ [] := by simp [joinDot]
      rw [this, splitSep_append_no_dot s [] hsdot]
      simp [splitSep, mapHead]
    | cons s2 t =>
      rw [joinDot_cons_of_ne_nil s (by simp),
        splitSep_append_no_dot s _ hsdot, splitSep_dotSpace,
        ih (by simp) (fun x hx => hdot x (List.mem_cons_of_mem _ hx))]
      simp [mapHead]

theorem dropWhile_eq_self_of_head (p : Char → Bool) (l : List Char)
    (h : ∀ a, l.head? = some a → p a = false) : l.dropWhile p = l := by
  cases l with
  | nil => rfl
  | cons c cs =>
    rw [List.dropWhile_cons, h c rfl]
    simp

theorem head_not_of_dropWhile_eq_self (p : Char → Bool) (l : List Char)
    (h : l.dropWhile p = l) : ∀ a, l.head? = some a → p a = false := by
  intro a ha
  cases l with
  | nil => simp at ha
  | cons c cs =>
    rw [List.head?_cons, Option.some_inj] at ha
    subst ha
    by_contra hp
    rw [Bool.not_eq_false] at hp
    rw [List.dropWhile_cons, hp, if_pos rfl] at h
    have := congrArg List.length h
    have hle := (List.dropWhile_sublist (l := cs) p).length_le
    simp at this
    omega

theorem jsTrim_eq_self_of (cs : List Char)
    (h1 : ∀ a, cs.head? = some a → a.isWhitespace = false)
    (h2 : ∀ a, cs.getLast? = some a → a.isWhitespace = false) : jsTrim cs = cs := by
  unfold jsTrim
  rw [dropWhile_eq_self_of_head _ _ h1,
    dropWhile_eq_self_of_head _ _ (by
      intro a ha
      rw [List.head?_reverse] at ha
      exact h2 a ha),
    List.reverse_reverse]

/-- When `trim` leaves a non-empty string unchanged, its first and last
characters are not whitespace. -/
theorem jsTrim_eq_self_ends (cs : List Char) (h : jsTrim cs = cs) :
    (∀ a, cs.head? = some a → a.isWhitespace = false)
    ∧ (∀ a, cs.getLast? = some a → a.isWhitespace = false) := by
  have hdw : cs.dropWhile Char.isWhitespace = cs := by
    have hlen := congrArg List.length h
    unfold jsTrim at hlen
    rw [List.length_reverse] at hlen
    have hle1 := (List.dropWhile_sublist
      (l := (cs.dropWhile Char.isWhitespace).reverse) Char.isWhitespace).length_le
    rw [List.length_reverse] at hle1
    have hle2 := (List.dropWhile_sublist (l := cs) Char.isWhitespace).length_le
    exact (List.dropWhile_sublist Char.isWhitespace).eq_of_length (by omega)
  have hdw2 : cs.reverse.dropWhile Char.isWhitespace = cs.reverse := by
    have h' := h
    unfold jsTrim at h'
    rw [hdw] at h'
    have := congrArg List.reverse h'
    rwa [List.reverse_reverse] at this
  refine ⟨head_not_of_dropWhile_eq_self _ _ hdw, ?_⟩
  intro a ha
  refine head_not_of_dropWhile_eq_self _ _ hdw2 a ?_
  rw [List.head?_reverse]
  exact ha

theorem joinDot_head? (s : List Char) (hs : List (List Char)) (h : s ≠ []) :
    (joinDot (s :: hs)).head? = s.head? := by
  cases hs with
  | nil => rfl
  | cons b t =>
    rw [joinDot_cons_of_ne_nil s (by simp)]
    cases s with
    | nil => exact absurd rfl h
    | cons a s' => rfl

theorem joinDot_getLast_not_ws :
    ∀ (hs : List (List Char)), (∀ x ∈ hs, jsTrim x = x ∧ x ≠ []) →
    ∀ a, (joinDot hs).getLast? = some a → a.isWhitespace = false := by
  intro hs
  induction hs with
  | nil => intro _ a ha; simp [joinDot] at ha
  | cons s t ih =>
    intro hall a ha
    rcases hall s (List.mem_cons_self _ _) with ⟨hts, hns⟩
    cases t with
    | nil =>
      exact (jsTrim_eq_self_ends s hts).2 a ha
    | cons s2 u =>
      rw [joinDot_cons_of_ne_nil s (by simp)] at ha
      rw [List.getLast?_append_cons] at ha
      have hjne : joinDot (s2 :: u) ≠ [] := by
        rcases hall s2 (List.mem_cons_of_mem _ (List.mem_cons_self _ _)) with ⟨_, hns2⟩
        exact joinDot_cons_ne_nil hns2 u
      cases hjd : joinDot (s2 :: u) with
      | nil => exact absurd hjd hjne
      | cons b v =>
        rw [hjd] at ha
        have : List.getLast? ('.' :: ' ' :: b :: v) = List.getLast? (b :: v) := by
          have h2 := List.getLast?_append_cons ['.', ' '] b v
          simp only [List.cons_append, List.nil_append] at h2
          exact h2
        rw [this, ← hjd] at ha
        exact ih (fun x hx => hall x (List.mem_cons_of_mem _ hx)) a ha

/-- Joining trimmed, non-empty sentences with `". "` yields a string `trim`
leaves unchanged. -/
theorem jsTrim_joinDot_eq (hs : List (List Char))
    (hall : ∀ x ∈ hs, jsTrim x = x ∧ x ≠ []) :
    jsTrim (joinDot hs) = joinDot hs := by
  cases hs with
  | nil => rfl
  | cons s t =>
    rcases hall s (List.mem_cons_self _ _) with ⟨hts, hns⟩
    refine jsTrim_eq_self_of _ ?_ (joinDot_getLast_not_ws _ hall)
    intro a ha
    rw [joinDot_head? s t hns] at ha
    exact (jsTrim_eq_self_ends s hts).1 a ha

/-- The sentence grouping the chunk loop implicitly computes: the chunks are
exactly the trimmed `". "`-joins of these groups. -/
def groupsLoop (maxChunkSize : Nat) : List (List Char) → List (List Char) →
    List (List (List Char))
  | [], g => if jsTrim (joinDot g) ≠ [] then [g] else []
  | s :: ss, g =>
    if (joinDot g).length + s.length > maxChunkSize && (joinDot g).length > 0 then
      g :: groupsLoop maxChunkSize ss [s]
    else groupsLoop maxChunkSize ss (g ++ [s])

theorem joinDot_append_singleton :
    ∀ (g : List (List Char)) (s : List Char), g ≠ [] →
    joinDot (g ++ [s]) = joinDot g ++ '.' :: ' ' :: s := by
  intro g
  induction g with
  | nil => intro s h; exact absurd rfl h
  | cons a g' ih =>
    intro s _
    cases g' with
    | nil => rfl
    | cons b g'' =>
      rw [List.cons_append, joinDot_cons_of_ne_nil a (by simp),
        joinDot_cons_of_ne_nil a (by simp), ih s (by simp), List.append_assoc]
      simp

/-- The chunk loop on the join of the current group computes the trimmed
joins of the groups. -/
theorem chunkLoop_eq_groupsLoop (maxChunkSize : Nat) :
    ∀ (ss g : List (List Char)),
    (∀ x ∈ g, x ≠ []) → (∀ x ∈ ss, x ≠ []) →
    chunkLoop maxChunkSize ss (joinDot g)
      = (groupsLoop maxChunkSize ss g).map (fun h => jsTrim (joinDot h)) := by
  intro ss
  induction ss with
  | nil =>
    intro g _ _
    rw [chunkLoop, groupsLoop]
    by_cases ht : jsTrim (joinDot g) ≠ []
    · rw [if_pos ht, if_pos ht, List.map_cons, List.map_nil]
    · rw [if_neg ht, if_neg ht, List.map_nil]
  | cons s rest ih =>
    intro g hg hss
    have hsne : s ≠ [] := hss s (List.mem_cons_self _ _)
    have hrest : ∀ x ∈ rest, x ≠ [] := fun x hx => hss x (List.mem_cons_of_mem _ hx)
    rw [chunkLoop, groupsLoop]
    by_cases hcond :
        ((joinDot g).length + s.length > maxChunkSize && (joinDot g).length > 0) = true
    · rw [if_pos hcond, if_pos hcond, List.map_cons]
      congr 1
      have hs1 : s = joinDot [s] := rfl
      rw [hs1]
      exact ih [s] (by intro x hx; simp at hx; subst hx; exact hsne) hrest
    · rw [if_neg hcond, if_neg hcond]
      by_cases hgnil : g = []
      · subst hgnil
        have h1 : joinDot ([] : List (List Char)) = [] := rfl
        rw [h1, if_pos rfl, List.append_nil, List.nil_append, List.nil_append]
        have hs1 : s = joinDot [s] := rfl
        rw [hs1]
        exact ih [s] (by intro x hx; simp at hx; subst hx; exact hsne) hrest
      · have hjne : joinDot g ≠ [] := by
          cases g with
          | nil => exact absurd rfl hgnil
          | cons a g' => exact joinDot_cons_ne_nil (hg a (List.mem_cons_self _ _)) g'
        rw [if_neg hjne]
        have harr : joinDot g ++ ['.', ' '] ++ s = joinDot (g ++ [s]) := by
          rw [joinDot_append_singleton g s hgnil, List.append_assoc]
          rfl
        rw [harr]
        refine ih (g ++ [s]) ?_ hrest
        intro x hx
        rcases List.mem_append.mp hx with h1 | h1
        · exact hg x h1
        · simp at h1; subst h1; exact hsne

/-- Sentences that contain a non-whitespace character survive `trim`. -/
theorem jsTrim_ne_nil_of_mem {a : Char} {cs : List Char}
    (hm : a ∈ cs) (hws : a.isWhitespace = false) : jsTrim cs ≠ [] := by
  intro hnil
  unfold jsTrim at hnil
  rw [List.reverse_eq_nil_iff] at hnil
  rw [List.dropWhile_eq_nil_iff] at hnil
  have hall : ∀ x ∈ cs.dropWhile Char.isWhitespace, x.isWhitespace = true := by
    intro x hx
    exact hnil x (by rw [List.mem_reverse]; exact hx)
  have : a.isWhitespace = true := by
    rcases List.mem_append.mp
      (by rw [List.takeWhile_append_dropWhile]; exact hm :
        a ∈ cs.takeWhile Char.isWhitespace ++ cs.dropWhile Char.isWhitespace) with h1 | h1
    · exact List.mem_takeWhile_imp h1
    · exact hall a h1
  rw [this] at hws
  exact Bool.true_eq_false.mp hws

theorem mem_joinDot :
    ∀ (g : List (List Char)) (x : List Char), x ∈ g → ∀ a ∈ x, a ∈ joinDot g := by
  intro g
  induction g with
  | nil => intro x hx; simp at hx
  | cons s t ih =>
    intro x hx a ha
    cases t with
    | nil =>
      simp at hx; subst hx
      exact ha
    | cons s2 u =>
      rw [joinDot_cons_of_ne_nil s (by simp)]
      rcases List.mem_cons.mp hx with h1 | h1
      · subst h1
        exact List.mem_append_left _ ha
      · refine List.mem_append_right _ ?_
        exact List.mem_cons_of_mem _ (List.mem_cons_of_mem _ (ih x h1 a ha))

/-- The groups partition the sentence list in order. -/
theorem groupsLoop_flatten (maxChunkSize : Nat) :
    ∀ (ss g : List (List Char)),
    (∀ x ∈ g, ∃ a ∈ x, a.isWhitespace = false) →
    (∀ x ∈ ss, ∃ a ∈ x, a.isWhitespace = false) →
    (groupsLoop maxChunkSize ss g).flatten = g ++ ss := by
  intro ss
  induction ss with
  | nil =>
    intro g hg _
    rw [groupsLoop]
    cases g with
    | nil => rw [if_neg (by simp [joinDot, jsTrim])]; rfl
    | cons x g' =>
      rcases hg x (List.mem_cons_self _ _) with ⟨a, ha, hws⟩
      rw [if_pos (jsTrim_ne_nil_of_mem
        (mem_joinDot (x :: g') x (List.mem_cons_self _ _) a ha) hws)]
      simp
  | cons s rest ih =>
    intro g hg hss
    have hsne : ∃ a ∈ s, a.isWhitespace = false := hss s (List.mem_cons_self _ _)
    have hrest : ∀ x ∈ rest, ∃ a ∈ x, a.isWhitespace = false :=
      fun x hx => hss x (List.mem_cons_of_mem _ hx)
    rw [groupsLoop]
    by_cases hcond :
        ((joinDot g).length + s.length > maxChunkSize && (joinDot g).length > 0) = true
    · rw [if_pos hcond, List.flatten_cons,
        ih [s] (by intro x hx; simp at hx; subst hx; exact hsne) hrest]
      rfl
    · rw [if_neg hcond,
        ih (g ++ [s]) (by
          intro x hx
          rcases List.mem_append.mp hx with h1 | h1
          · exact hg x h1
          · simp at h1; subst h1; exact hsne) hrest,
        List.append_assoc]
      rfl

/-- Group members come from the initial group or the sentence list. -/
theorem mem_groupsLoop (maxChunkSize : Nat) :
    ∀ (ss g h : List (List Char)),
    h ∈ groupsLoop maxChunkSize ss g → ∀ x ∈ h, x ∈ g ∨ x ∈ ss := by
  intro ss
  induction ss with
  | nil =>
    intro g h hh x hx
    rw [groupsLoop] at hh
    by_cases ht : jsTrim (joinDot g) ≠ []
    · rw [if_pos ht] at hh
      simp at hh; subst hh
      exact Or.inl hx
    · rw [if_neg ht] at hh
      simp at hh
  | cons s rest ih =>
    intro g h hh x hx
    rw [groupsLoop] at hh
    by_cases hcond :
        ((joinDot g).length + s.length > maxChunkSize && (joinDot g).length > 0) = true
    · rw [if_pos hcond] at hh
      rcases List.mem_cons.mp hh with h1 | h1
      · subst h1; exact Or.inl hx
      · rcases ih [s] h h1 x hx with h2 | h2
        · simp at h2; subst h2
          exact Or.inr (List.mem_cons_self _ _)
        · exact Or.inr (List.mem_cons_of_mem _ h2)
    · rw [if_neg hcond] at hh
      rcases ih (g ++ [s]) h hh x hx with h2 | h2
      · rcases List.mem_append.mp h2 with h3 | h3
        · exact Or.inl h3
        · simp at h3; subst h3
          exact Or.inr (List.mem_cons_self _ _)
      · exact Or.inr (List.mem_cons_of_mem _ h2)

/-- Emitted groups are never empty. -/
theorem groupsLoop_ne_nil (maxChunkSize : Nat) :
    ∀ (ss g h : List (List Char)), h ∈ groupsLoop maxChunkSize ss g → h ≠ [] := by
  intro ss
  induction ss with
  | nil =>
    intro g h hh
    rw [groupsLoop] at hh
    by_cases ht : jsTrim (joinDot g) ≠ []
    · rw [if_pos ht] at hh
      simp at hh; subst hh
      intro hnil
      subst hnil
      exact ht rfl
    · rw [if_neg ht] at hh
      simp at hh
  | cons s rest ih =>
    intro g h hh
    rw [groupsLoop] at hh
    by_cases hcond :
        ((joinDot g).length + s.length > maxChunkSize && (joinDot g).length > 0) = true
    · rw [if_pos hcond] at hh
      rcases List.mem_cons.mp hh with h1 | h1
      · subst h1
        intro hnil
        subst hnil
        rw [Bool.and_eq_true] at hcond
        have := hcond.2
        simp [joinDot] at this
      · exact ih [s] h h1
    · rw [if_neg hcond] at hh
      exact ih (g ++ [s]) h hh

theorem flatMap_congr_mem {α β : Type} (l : List α) (f g : α → List β)
    (h : ∀ x ∈ l, f x = g x) : l.flatMap f = l.flatMap g := by
  induction l with
  | nil => rfl
  | cons a t ih =>
    rw [List.flatMap_cons, List.flatMap_cons, h a (List.mem_cons_self _ _),
      ih (fun x hx => h x (List.mem_cons_of_mem _ hx))]

theorem flatMap_self {α : Type} (L : List (List α)) :
    L.flatMap (fun x => x) = L.flatten := by
  induction L with
  | nil => rfl
  | cons a t ih => rw [List.flatMap_cons, List.flatten_cons, ih]

theorem jsTrim_eq_nil_of_all_ws (cs : List Char)
    (h : ∀ a ∈ cs, a.isWhitespace = true) : jsTrim cs = [] := by
  unfold jsTrim
  rw [List.dropWhile_eq_nil_iff.mpr (fun a ha => h a ha)]
  rfl

/-- C7 (corrected): for input `" a"` the sentence sequence is `[" a"]`, but
the chunks reconstruct to `["a"]` — the chunk-level `trim` strips the
leading whitespace of the chunk's first sentence. -/
theorem C7_counterexample :
    sentencesOf " a".data = [" a".data]
    ∧ (splitTextIntoChunks " a".data 1000).flatMap splitSep = ["a".data]
    ∧ (["a".data] : List (List Char)) ≠ [" a".data] := by
  refine ⟨by decide, by decide, by decide⟩

/-- C7 (amended): provided every sentence of the input carries no leading or
trailing whitespace (`trim` leaves it unchanged), splitting each chunk on
the `". "` join separator and concatenating the pieces in chunk order yields
exactly the original sentence sequence; in particular no sentence is split
across a chunk boundary.  In general the chunk-level `trim` strips leading
whitespace of each chunk's first sentence and trailing whitespace of its
last. -/
theorem C7_chunks_reconstruct (text : List Char) (maxChunkSize : Nat)
    (h : ∀ s ∈ sentencesOf text, jsTrim s = s) :
    (splitTextIntoChunks text maxChunkSize).flatMap splitSep = sentencesOf text := by
  have hne : ∀ s ∈ sentencesOf text, jsTrim s ≠ [] := by
    intro s hs
    exact of_decide_eq_true (List.mem_filter.mp hs).2
  have hsne : ∀ s ∈ sentencesOf text, s ≠ [] := by
    intro s hs hnil
    have h1 := hne s hs
    rw [hnil] at h1
    exact h1 rfl
  have hnodot : ∀ s ∈ sentencesOf text, ∀ a ∈ s, a ≠ '.' := by
    intro s hs a ha heq
    have ht := splitTermsFuel_no_term text.length text s (List.mem_of_mem_filter hs) a ha
    rw [heq] at ht
    simp [isTerm] at ht
  have hnws : ∀ s ∈ sentencesOf text, ∃ a ∈ s, a.isWhitespace = false := by
    intro s hs
    by_contra hcon
    push_neg at hcon
    refine hne s hs (jsTrim_eq_nil_of_all_ws s ?_)
    intro a ha
    have := hcon a ha
    exact Bool.not_eq_false (a.isWhitespace) |>.mp this ▸ (by
      cases hb : a.isWhitespace with
      | true => rfl
      | false => exact absurd hb this)
  unfold splitTextIntoChunks
  have h0 : chunkLoop maxChunkSize (sentencesOf text) []
      = chunkLoop maxChunkSize (sentencesOf text) (joinDot []) := rfl
  rw [h0, chunkLoop_eq_groupsLoop maxChunkSize (sentencesOf text) []
      (by intro x hx; simp at hx) hsne, List.flatMap_map]
  have hgroups : ∀ hgrp ∈ groupsLoop maxChunkSize (sentencesOf text) [],
      splitSep (jsTrim (joinDot hgrp)) = hgrp := by
    intro hgrp hmem
    have hmemS : ∀ x ∈ hgrp, x ∈ sentencesOf text := by
      intro x hx
      rcases mem_groupsLoop maxChunkSize (sentencesOf text) [] hgrp hmem x hx with h1 | h1
      · simp at h1
      · exact h1
    rw [jsTrim_joinDot_eq hgrp (fun x hx => ⟨h x (hmemS x hx), hsne x (hmemS x hx)⟩)]
    exact splitSep_joinDot hgrp (groupsLoop_ne_nil _ _ _ hgrp hmem)
      (fun s hs => hnodot s (hmemS s hs))
  rw [flatMap_congr_mem _ _ (fun hgrp => hgrp) hgroups, flatMap_self]
  exact groupsLoop_flatten maxChunkSize (sentencesOf text) []
    (by intro x hx; simp at hx) hnws

/-- Witness for C7_chunks_reconstruct on `ab.cd`, whose sentences are
already trimmed. -/
theorem C7_witness :
    (∀ s ∈ sentencesOf "ab.cd".data, jsTrim s = s)
    ∧ (splitTextIntoChunks "ab.cd".data 1000).flatMap splitSep
        = sentencesOf "ab.cd".data :=
  ⟨by decide, C7_chunks_reconstruct "ab.cd".data 1000 (by decide)⟩

end ChatbotAdmin
